import Mathlib

/-!
Shallow embedding of `src/minmax.rs` from rust-stats: the `MinMax<T>`
commutative min/max/count accumulator.

Modelling conventions:
* `T: PartialOrd` is embedded as an explicit comparison function
  `cmp : α → α → Option Ordering`, mirroring Rust's `partial_cmp`
  (`none` = incomparable).  The operators `<` and `>` used by the source
  are `cmp x y = some .lt` and `cmp x y = some .gt`.
* Rust's derived `PartialOrd` on `Option<T>` (used by `merge`, which
  compares the `Option` fields directly) orders by variant first:
  `None < Some(_)`.  It is embedded as `optCmp`.
* The `len: u64` field is embedded as `Nat`; wraparound at `2^64` (which
  panics in debug builds) is out of scope for the properties considered.
* For claims stated over a totally ordered sample type, `cmpo` is the
  comparison of a `LinearOrder`.
-/

namespace RustStats

/-- Embeds `struct MinMax<T> { len: u64, min: Option<T>, max: Option<T> }`. -/
structure MinMax (α : Type) where
  len : Nat
  min : Option α
  max : Option α
deriving Repr, DecidableEq

namespace MinMax

/-- Rust `a < b` for a `PartialOrd` given by `cmp`. -/
def isLt (cmp : α → α → Option Ordering) (x y : α) : Bool :=
  decide (cmp x y = some Ordering.lt)

/-- Rust `a > b` for a `PartialOrd` given by `cmp`. -/
def isGt (cmp : α → α → Option Ordering) (x y : α) : Bool :=
  decide (cmp x y = some Ordering.gt)

/-- The derived `PartialOrd` on `Option<T>`: variant order first
(`None < Some(_)`), inner comparison when both are `Some`. -/
def optCmp (cmp : α → α → Option Ordering) : Option α → Option α → Option Ordering
  | none, none => some Ordering.eq
  | none, some _ => some Ordering.lt
  | some _, none => some Ordering.gt
  | some x, some y => cmp x y

/-- `MinMax::new` / `Default::default`: the empty state. -/
def new : MinMax α := ⟨0, none, none⟩

/-- `MinMax::add`:
```
self.len += 1;
if self.min.as_ref().map(|v| &sample < v).unwrap_or(true) {
    self.min = Some(sample.clone());
}
if self.max.as_ref().map(|v| &sample > v).unwrap_or(true) {
    self.max = Some(sample);
}
``` -/
def add (cmp : α → α → Option Ordering) (m : MinMax α) (sample : α) : MinMax α :=
  { len := m.len + 1
    min := if (m.min.map (fun v => isLt cmp sample v)).getD true then some sample else m.min
    max := if (m.max.map (fun v => isGt cmp sample v)).getD true then some sample else m.max }

/-- `Commute::merge`:
```
self.len += v.len;
if v.min < self.min { self.min = v.min; }
if v.max > self.max { self.max = v.max; }
```
The comparisons are on the `Option` fields themselves, under the derived
`Option` ordering `optCmp`. -/
def merge (cmp : α → α → Option Ordering) (m v : MinMax α) : MinMax α :=
  { len := m.len + v.len
    min := if optCmp cmp v.min m.min = some Ordering.lt then v.min else m.min
    max := if optCmp cmp v.max m.max = some Ordering.gt then v.max else m.max }

/-- `Extend::extend`: `for sample in it { self.add(sample); }`. -/
def extend (cmp : α → α → Option Ordering) (m : MinMax α) : List α → MinMax α
  | [] => m
  | sample :: rest => extend cmp (m.add cmp sample) rest

/-- `FromIterator::from_iter`: `let mut v = MinMax::new(); v.extend(it); v`. -/
def fromList (cmp : α → α → Option Ordering) (l : List α) : MinMax α :=
  extend cmp new l

/-- `fmt::Debug::fmt`: `some (some (min, max))` for `[min, max]`,
`some none` for `N/A`, and `none` for the `unreachable!()` branch
taken when exactly one bound is set. -/
def fmtDebug (m : MinMax α) : Option (Option (α × α)) :=
  match m.min, m.max with
  | some mn, some mx => some (some (mn, mx))
  | none, none => some none
  | _, _ => none

/-- The comparison of a linear order, as a total `partial_cmp`. -/
def cmpo [LinearOrder α] (x y : α) : Option Ordering :=
  some (if x < y then Ordering.lt else if y < x then Ordering.gt else Ordering.eq)

/-- The Empty state of the spec's state machine: zero count, no bounds. -/
def isEmptyState (m : MinMax α) : Prop :=
  m.len = 0 ∧ m.min = none ∧ m.max = none

/-- One public mutating operation, as seen from a given tracker: `add` a
sample, `extend` by a list, merge another tracker into this one, or merge
this tracker into another one (the result being the surviving tracker). -/
inductive Op (α : Type) where
  | add (s : α)
  | extendBy (l : List α)
  | mergeIn (v : MinMax α)
  | mergeInto (v : MinMax α)

/-- Apply one public operation. -/
def applyOp (cmp : α → α → Option Ordering) (m : MinMax α) : Op α → MinMax α
  | Op.add s => m.add cmp s
  | Op.extendBy l => m.extend cmp l
  | Op.mergeIn v => m.merge cmp v
  | Op.mergeInto v => v.merge cmp m

/-- Apply a finite sequence of public operations. -/
def applyOps (cmp : α → α → Option Ordering) (m : MinMax α) : List (Op α) → MinMax α
  | [] => m
  | o :: rest => applyOps cmp (applyOp cmp m o) rest

/-- Trackers reachable from the empty tracker by public operations
(over a totally ordered sample type). -/
inductive Reachable [LinearOrder α] : MinMax α → Prop where
  | new : Reachable MinMax.new
  | add (m : MinMax α) (s : α) : Reachable m → Reachable (m.add cmpo s)
  | extendBy (m : MinMax α) (l : List α) : Reachable m → Reachable (m.extend cmpo l)
  | merge (m v : MinMax α) : Reachable m → Reachable v → Reachable (m.merge cmpo v)
  | fromList (l : List α) : Reachable (MinMax.fromList cmpo l)

/-- What the spec calls repeated `add`: `add` applied to each sample of the
sequence in iteration order, starting from the given tracker. -/
def addEach (cmp : α → α → Option Ordering) (m : MinMax α) (l : List α) : MinMax α :=
  l.foldl (fun acc s => acc.add cmp s) m

end MinMax

/-- A comparison on `ℕ` under which every pair is incomparable
(`partial_cmp` always `None`, as for floating-point NaN). -/
def cmpNone : Nat → Nat → Option Ordering := fun _ _ => none

/-- A comparison on pairs that orders by first component only: distinct
payloads in the second component compare equal. -/
def cmpFst : Nat × Nat → Nat × Nat → Option Ordering :=
  fun p q =>
    some (if p.1 < q.1 then Ordering.lt else if q.1 < p.1 then Ordering.gt else Ordering.eq)

section CodeBugs

open MinMax

/-- C1: merging an empty tracker into the tracker built from `[1]` resets
its `min` to `none` (because `None < Some(_)` under the derived `Option`
ordering used by `merge`), and merging that tracker into an empty one
leaves the result's `min` unset; so the empty tracker is not an identity
for `merge`. -/
theorem merge_with_empty_not_identity :
    (MinMax.fromList cmpo ([1] : List ℤ)).min = some 1 ∧
    ((MinMax.fromList cmpo ([1] : List ℤ)).merge cmpo MinMax.new).min = none ∧
    (MinMax.new.merge cmpo (MinMax.fromList cmpo ([1] : List ℤ))).min = none ∧
    (MinMax.new.merge cmpo (MinMax.fromList cmpo ([1] : List ℤ))).len = 1 := by
  decide

/-- C2: the tracker `⟨1, none, some 2⟩` is reachable from the empty
tracker (add `2`, then merge an empty tracker in), yet its count is
positive while its minimum is unset: the invariant
`minimum.is_some() == maximum.is_some() == (count > 0)` fails. -/
theorem reachable_violates_invariant :
    MinMax.Reachable (⟨1, none, some 2⟩ : MinMax ℤ) ∧
    (⟨1, none, some 2⟩ : MinMax ℤ).len ≠ 0 ∧
    (⟨1, none, some 2⟩ : MinMax ℤ).min = none ∧
    (⟨1, none, some 2⟩ : MinMax ℤ).max = some 2 := by
  refine ⟨?_, by decide, rfl, rfl⟩
  have h := MinMax.Reachable.merge (MinMax.new.add cmpo (2 : ℤ)) MinMax.new
    (MinMax.Reachable.add MinMax.new (2 : ℤ) MinMax.Reachable.new) MinMax.Reachable.new
  have e : (MinMax.new.add cmpo (2 : ℤ)).merge cmpo MinMax.new = ⟨1, none, some 2⟩ := by
    decide
  rw [← e]
  exact h

/-- C3: merging the tracker built from `[]` into the tracker built from
`[2,5]` yields minimum `none` instead of `some 2 = min (some 2, unset)`:
merge is not additive with unset acting as identity on the minimum. -/
theorem merge_not_additive_on_min :
    (MinMax.fromList cmpo ([2, 5] : List ℤ)).min = some 2 ∧
    (MinMax.fromList cmpo ([] : List ℤ)).min = none ∧
    (MinMax.fromList cmpo ([2, 5] : List ℤ)).merge cmpo (MinMax.fromList cmpo ([] : List ℤ)) =
      ⟨2, none, some 5⟩ := by
  decide

/-- C6: a tracker with exactly one bound set is reachable by public
operations (add `1`, then merge an empty tracker in), and on it the Debug
formatter takes the `unreachable!()` branch (modelled as `none`). -/
theorem reachable_hits_unreachable_branch :
    MinMax.Reachable (⟨1, none, some 1⟩ : MinMax ℤ) ∧
    MinMax.fmtDebug (⟨1, none, some 1⟩ : MinMax ℤ) = none := by
  refine ⟨?_, rfl⟩
  have h := MinMax.Reachable.merge (MinMax.new.add cmpo (1 : ℤ)) MinMax.new
    (MinMax.Reachable.add MinMax.new (1 : ℤ) MinMax.Reachable.new) MinMax.Reachable.new
  have e : (MinMax.new.add cmpo (1 : ℤ)).merge cmpo MinMax.new = ⟨1, none, some 1⟩ := by
    decide
  rw [← e]
  exact h

end CodeBugs

section Helpers

open MinMax

variable {α : Type}

theorem cmpo_eq_lt_iff [LinearOrder α] (x y : α) :
    cmpo x y = some Ordering.lt ↔ x < y := by
  unfold cmpo
  split_ifs with h1 h2
  · simp [h1]
  · simp [h1]
  · simp [h1]

theorem cmpo_eq_gt_iff [LinearOrder α] (x y : α) :
    cmpo x y = some Ordering.gt ↔ y < x := by
  unfold cmpo
  split_ifs with h1 h2
  · simp [h1.asymm]
  · simp [h2]
  · simp [h2]

theorem add_new (cmp : α → α → Option Ordering) (s : α) :
    MinMax.new.add cmp s = ⟨1, some s, some s⟩ := rfl

theorem add_populated [LinearOrder α] (m : MinMax α) (a b s : α)
    (hm : m.min = some a) (hM : m.max = some b) :
    m.add cmpo s = ⟨m.len + 1, some (Min.min a s), some (Max.max b s)⟩ := by
  unfold MinMax.add isLt isGt
  rw [hm, hM]
  simp only [Option.map_some', Option.getD_some, decide_eq_true_eq,
    cmpo_eq_lt_iff, cmpo_eq_gt_iff, MinMax.mk.injEq]
  refine ⟨trivial, ?_, ?_⟩
  · split_ifs with h
    · rw [min_eq_right h.le]
    · rw [min_eq_left (le_of_not_lt h)]
  · split_ifs with h
    · rw [max_eq_right h.le]
    · rw [max_eq_left (le_of_not_lt h)]

theorem extend_len (cmp : α → α → Option Ordering) (l : List α) :
    ∀ m : MinMax α, (m.extend cmp l).len = m.len + l.length := by
  induction l with
  | nil => intro m; rfl
  | cons s rest ih =>
      intro m
      rw [show MinMax.extend cmp m (s :: rest) = MinMax.extend cmp (m.add cmp s) rest from rfl,
        ih]
      simp [MinMax.add]
      omega

theorem extend_populated [LinearOrder α] (l : List α) :
    ∀ (m : MinMax α) (a b : α), m.min = some a → m.max = some b →
      m.extend cmpo l =
        ⟨m.len + l.length, some (l.foldl Min.min a), some (l.foldl Max.max b)⟩ := by
  induction l with
  | nil =>
      intro m a b hm hM
      cases m with
      | mk len mn mx =>
          simp only at hm hM
          simp [MinMax.extend, hm, hM]
  | cons s rest ih =>
      intro m a b hm hM
      rw [show MinMax.extend cmpo m (s :: rest) = MinMax.extend cmpo (m.add cmpo s) rest from
        rfl]
      rw [add_populated m a b s hm hM]
      rw [ih _ (Min.min a s) (Max.max b s) rfl rfl]
      simp only [List.length_cons, List.foldl_cons, MinMax.mk.injEq]
      refine ⟨by omega, trivial, trivial⟩

theorem fromList_struct [LinearOrder α] (x : α) (xs : List α) :
    MinMax.fromList cmpo (x :: xs) =
      ⟨xs.length + 1, some (xs.foldl Min.min x), some (xs.foldl Max.max x)⟩ := by
  unfold MinMax.fromList
  rw [show MinMax.extend cmpo MinMax.new (x :: xs) =
    MinMax.extend cmpo (MinMax.new.add cmpo x) xs from rfl]
  rw [add_new, extend_populated xs _ x x rfl rfl]
  simp [Nat.add_comm]

theorem foldl_min_le_init [LinearOrder α] (l : List α) :
    ∀ a : α, l.foldl Min.min a ≤ a := by
  induction l with
  | nil => intro a; exact le_refl a
  | cons s rest ih => intro a; exact le_trans (ih (Min.min a s)) (min_le_left a s)

theorem foldl_min_le_mem [LinearOrder α] (l : List α) :
    ∀ (a x : α), x ∈ l → l.foldl Min.min a ≤ x := by
  induction l with
  | nil => intro a x hx; cases hx
  | cons s rest ih =>
      intro a x hx
      rcases List.mem_cons.mp hx with h | h
      · subst h; exact le_trans (foldl_min_le_init rest (Min.min a x)) (min_le_right a x)
      · exact ih _ x h

theorem foldl_min_mem [LinearOrder α] (l : List α) :
    ∀ a : α, l.foldl Min.min a = a ∨ l.foldl Min.min a ∈ l := by
  induction l with
  | nil => intro a; exact Or.inl rfl
  | cons s rest ih =>
      intro a
      rcases ih (Min.min a s) with h | h
      · rcases min_choice a s with h2 | h2
        · exact Or.inl (h.trans h2)
        · exact Or.inr (by rw [List.foldl_cons, h, h2]; exact List.mem_cons_self s rest)
      · exact Or.inr (List.mem_cons_of_mem s h)

theorem foldl_max_ge_init [LinearOrder α] (l : List α) :
    ∀ a : α, a ≤ l.foldl Max.max a := by
  induction l with
  | nil => intro a; exact le_refl a
  | cons s rest ih => intro a; exact le_trans (le_max_left a s) (ih (Max.max a s))

theorem foldl_max_ge_mem [LinearOrder α] (l : List α) :
    ∀ (a x : α), x ∈ l → x ≤ l.foldl Max.max a := by
  induction l with
  | nil => intro a x hx; cases hx
  | cons s rest ih =>
      intro a x hx
      rcases List.mem_cons.mp hx with h | h
      · subst h; exact le_trans (le_max_right a x) (foldl_max_ge_init rest (Max.max a x))
      · exact ih _ x h

theorem foldl_max_mem [LinearOrder α] (l : List α) :
    ∀ a : α, l.foldl Max.max a = a ∨ l.foldl Max.max a ∈ l := by
  induction l with
  | nil => intro a; exact Or.inl rfl
  | cons s rest ih =>
      intro a
      rcases ih (Max.max a s) with h | h
      · rcases max_choice a s with h2 | h2
        · exact Or.inl (h.trans h2)
        · exact Or.inr (by rw [List.foldl_cons, h, h2]; exact List.mem_cons_self s rest)
      · exact Or.inr (List.mem_cons_of_mem s h)

theorem fromList_len [LinearOrder α] (l : List α) :
    (MinMax.fromList cmpo l).len = l.length := by
  unfold MinMax.fromList
  rw [extend_len]
  simp [MinMax.new]

theorem fromList_min_is_least [LinearOrder α] (l : List α) (h : l ≠ []) :
    ∃ a, (MinMax.fromList cmpo l).min = some a ∧ a ∈ l ∧ ∀ x ∈ l, a ≤ x := by
  cases l with
  | nil => exact absurd rfl h
  | cons x xs =>
      refine ⟨xs.foldl Min.min x, ?_, ?_, ?_⟩
      · rw [fromList_struct]
      · rcases foldl_min_mem xs x with h2 | h2
        · rw [h2]; exact List.mem_cons_self x xs
        · exact List.mem_cons_of_mem x h2
      · intro y hy
        rcases List.mem_cons.mp hy with h2 | h2
        · subst h2; exact foldl_min_le_init xs y
        · exact foldl_min_le_mem xs x y h2

theorem fromList_max_is_greatest [LinearOrder α] (l : List α) (h : l ≠ []) :
    ∃ b, (MinMax.fromList cmpo l).max = some b ∧ b ∈ l ∧ ∀ x ∈ l, x ≤ b := by
  cases l with
  | nil => exact absurd rfl h
  | cons x xs =>
      refine ⟨xs.foldl Max.max x, ?_, ?_, ?_⟩
      · rw [fromList_struct]
      · rcases foldl_max_mem xs x with h2 | h2
        · rw [h2]; exact List.mem_cons_self x xs
        · exact List.mem_cons_of_mem x h2
      · intro y hy
        rcases List.mem_cons.mp hy with h2 | h2
        · subst h2; exact foldl_max_ge_init xs y
        · exact foldl_max_ge_mem xs x y h2

theorem extend_eq_addEach (cmp : α → α → Option Ordering) (l : List α) :
    ∀ m : MinMax α, m.extend cmp l = MinMax.addEach cmp m l := by
  induction l with
  | nil => intro m; rfl
  | cons s rest ih => intro m; exact ih (m.add cmp s)

theorem applyOp_len_pos (cmp : α → α → Option Ordering) (m : MinMax α) (o : MinMax.Op α)
    (h : 0 < m.len) : 0 < (MinMax.applyOp cmp m o).len := by
  cases o with
  | add s => exact Nat.succ_pos m.len
  | extendBy l =>
      rw [show MinMax.applyOp cmp m (MinMax.Op.extendBy l) = m.extend cmp l from rfl,
        extend_len]
      omega
  | mergeIn v =>
      show 0 < m.len + v.len
      omega
  | mergeInto v =>
      show 0 < v.len + m.len
      omega

end Helpers

section Claims

open MinMax

variable {α : Type}

/-- C4: over a totally ordered sample type, `merge` is commutative: merging
`B` into `A` yields exactly the same tracker (length, minimum, maximum) as
merging `A` into `B`. -/
theorem merge_comm [LinearOrder α] (A B : MinMax α) :
    A.merge cmpo B = B.merge cmpo A := by
  cases A with
  | mk la mna mxa =>
      cases B with
      | mk lb mnb mxb =>
          simp only [MinMax.merge, MinMax.mk.injEq]
          refine ⟨Nat.add_comm la lb, ?_, ?_⟩
          · rcases mna with _ | a <;> rcases mnb with _ | b
            · rfl
            · simp [MinMax.optCmp]
            · simp [MinMax.optCmp]
            · simp only [MinMax.optCmp, cmpo_eq_lt_iff]
              rcases lt_trichotomy a b with h | h | h
              · rw [if_neg (asymm h), if_pos h]
              · subst h; simp
              · rw [if_pos h, if_neg (asymm h)]
          · rcases mxa with _ | a <;> rcases mxb with _ | b
            · rfl
            · simp [MinMax.optCmp]
            · simp [MinMax.optCmp]
            · simp only [MinMax.optCmp, cmpo_eq_gt_iff]
              rcases lt_trichotomy a b with h | h | h
              · rw [if_pos h, if_neg (asymm h)]
              · subst h; simp
              · rw [if_neg (asymm h), if_pos h]

/-- C5: for any non-empty list of samples over a totally ordered type, the
tracker built by adding them all has length the number of samples, minimum
the least element of the multiset and maximum the greatest, and each of
these is unchanged under any permutation of the insertion order. -/
theorem fromList_computes_multiset_bounds [LinearOrder α] (l : List α) (h : l ≠ []) :
    (MinMax.fromList cmpo l).len = l.length ∧
    (∃ a, (MinMax.fromList cmpo l).min = some a ∧ a ∈ l ∧ ∀ x ∈ l, a ≤ x) ∧
    (∃ b, (MinMax.fromList cmpo l).max = some b ∧ b ∈ l ∧ ∀ x ∈ l, x ≤ b) ∧
    ∀ l' : List α, l.Perm l' →
      (MinMax.fromList cmpo l').len = (MinMax.fromList cmpo l).len ∧
      (MinMax.fromList cmpo l').min = (MinMax.fromList cmpo l).min ∧
      (MinMax.fromList cmpo l').max = (MinMax.fromList cmpo l).max := by
  refine ⟨fromList_len l, fromList_min_is_least l h, fromList_max_is_greatest l h, ?_⟩
  intro l' hp
  have h' : l' ≠ [] := by
    intro he
    rw [he] at hp
    exact h (List.Perm.eq_nil hp)
  obtain ⟨a, ha1, ha2, ha3⟩ := fromList_min_is_least l h
  obtain ⟨a', hb1, hb2, hb3⟩ := fromList_min_is_least l' h'
  obtain ⟨c, hc1, hc2, hc3⟩ := fromList_max_is_greatest l h
  obtain ⟨c', hd1, hd2, hd3⟩ := fromList_max_is_greatest l' h'
  refine ⟨?_, ?_, ?_⟩
  · rw [fromList_len, fromList_len, hp.length_eq]
  · rw [ha1, hb1]
    have e1 : a ≤ a' := ha3 a' (hp.mem_iff.mpr hb2)
    have e2 : a' ≤ a := hb3 a (hp.mem_iff.mp ha2)
    rw [le_antisymm e1 e2]
  · rw [hc1, hd1]
    have e1 : c' ≤ c := hc3 c' (hp.mem_iff.mpr hd2)
    have e2 : c ≤ c' := hd3 c (hp.mem_iff.mp hc2)
    rw [le_antisymm e2 e1]

/-- Witness for C5 at the concrete sample list `[1, 4, 2, 3, 10]`. -/
theorem fromList_computes_multiset_bounds_witness :
    ([1, 4, 2, 3, 10] : List ℤ) ≠ [] ∧
    ((MinMax.fromList cmpo ([1, 4, 2, 3, 10] : List ℤ)).len =
        ([1, 4, 2, 3, 10] : List ℤ).length ∧
      (∃ a, (MinMax.fromList cmpo ([1, 4, 2, 3, 10] : List ℤ)).min = some a ∧
        a ∈ ([1, 4, 2, 3, 10] : List ℤ) ∧ ∀ x ∈ ([1, 4, 2, 3, 10] : List ℤ), a ≤ x) ∧
      (∃ b, (MinMax.fromList cmpo ([1, 4, 2, 3, 10] : List ℤ)).max = some b ∧
        b ∈ ([1, 4, 2, 3, 10] : List ℤ) ∧ ∀ x ∈ ([1, 4, 2, 3, 10] : List ℤ), x ≤ b) ∧
      ∀ l' : List ℤ, ([1, 4, 2, 3, 10] : List ℤ).Perm l' →
        (MinMax.fromList cmpo l').len = (MinMax.fromList cmpo ([1, 4, 2, 3, 10] : List ℤ)).len ∧
        (MinMax.fromList cmpo l').min = (MinMax.fromList cmpo ([1, 4, 2, 3, 10] : List ℤ)).min ∧
        (MinMax.fromList cmpo l').max = (MinMax.fromList cmpo ([1, 4, 2, 3, 10] : List ℤ)).max) :=
  ⟨by decide, fromList_computes_multiset_bounds [1, 4, 2, 3, 10] (by decide)⟩

/-- C7: when a sample compares equal to the stored minimum (respectively
maximum), `add` keeps the stored value — the earliest-seen tied value is
retained — while the count still increments by 1. -/
theorem add_tie_keeps_stored (cmp : α → α → Option Ordering) (m : MinMax α) (s : α) :
    (∀ a, m.min = some a → cmp s a = some Ordering.eq → (m.add cmp s).min = some a) ∧
    (∀ b, m.max = some b → cmp s b = some Ordering.eq → (m.add cmp s).max = some b) ∧
    (m.add cmp s).len = m.len + 1 := by
  refine ⟨?_, ?_, rfl⟩
  · intro a hm he
    simp [MinMax.add, MinMax.isLt, hm, he]
  · intro b hM he
    simp [MinMax.add, MinMax.isGt, hM, he]

/-- Witness for C7: under a comparison on pairs that only looks at the
first component, adding `(5, 1)` to a tracker whose bounds are `(5, 0)`
keeps the stored `(5, 0)` in both bounds and increments the count. -/
theorem add_tie_keeps_stored_witness :
    (⟨1, some (5, 0), some (5, 0)⟩ : MinMax (Nat × Nat)).min = some (5, 0) ∧
    cmpFst (5, 1) (5, 0) = some Ordering.eq ∧
    (MinMax.add cmpFst ⟨1, some (5, 0), some (5, 0)⟩ (5, 1)).min = some (5, 0) ∧
    (MinMax.add cmpFst ⟨1, some (5, 0), some (5, 0)⟩ (5, 1)).max = some (5, 0) ∧
    (MinMax.add cmpFst ⟨1, some (5, 0), some (5, 0)⟩ (5, 1)).len = 1 + 1 := by
  have h := add_tie_keeps_stored cmpFst ⟨1, some (5, 0), some (5, 0)⟩ (5, 1)
  exact ⟨rfl, by decide, h.1 (5, 0) rfl (by decide), h.2.1 (5, 0) rfl (by decide), h.2.2⟩

/-- C8: constructing a tracker from a sequence equals starting empty and
adding each sample in iteration order, and `extend` on any tracker equals
repeated `add` in the same order (full observable state: length, minimum,
maximum). -/
theorem fromList_extend_eq_addEach (cmp : α → α → Option Ordering) (m : MinMax α)
    (l : List α) :
    MinMax.fromList cmp l = MinMax.addEach cmp MinMax.new l ∧
    m.extend cmp l = MinMax.addEach cmp m l :=
  ⟨extend_eq_addEach cmp l MinMax.new, extend_eq_addEach cmp l m⟩

/-- C9: a tracker with positive count keeps a positive count under any
finite sequence of public operations (add, extend, merge in either role),
so it never returns to the Empty state. -/
theorem populated_never_empty (cmp : α → α → Option Ordering) (m : MinMax α)
    (h : 0 < m.len) (ops : List (MinMax.Op α)) :
    0 < (MinMax.applyOps cmp m ops).len ∧
    ¬ MinMax.isEmptyState (MinMax.applyOps cmp m ops) := by
  have key : ∀ (ops : List (MinMax.Op α)) (m : MinMax α), 0 < m.len →
      0 < (MinMax.applyOps cmp m ops).len := by
    intro ops
    induction ops with
    | nil => intro m hm; exact hm
    | cons o rest ih => intro m hm; exact ih _ (applyOp_len_pos cmp m o hm)
  have h2 := key ops m h
  refine ⟨h2, fun he => ?_⟩
  rw [he.1] at h2
  exact lt_irrefl 0 h2

/-- Witness for C9: starting from the populated tracker `⟨1, some 1, some 1⟩`
and merging in an empty tracker then adding `5`, the result is not Empty. -/
theorem populated_never_empty_witness :
    0 < (⟨1, some 1, some 1⟩ : MinMax ℤ).len ∧
    (0 < (MinMax.applyOps cmpo (⟨1, some 1, some 1⟩ : MinMax ℤ)
        [MinMax.Op.mergeIn MinMax.new, MinMax.Op.add 5]).len ∧
      ¬ MinMax.isEmptyState (MinMax.applyOps cmpo (⟨1, some 1, some 1⟩ : MinMax ℤ)
        [MinMax.Op.mergeIn MinMax.new, MinMax.Op.add 5])) :=
  ⟨by decide,
    populated_never_empty cmpo ⟨1, some 1, some 1⟩ (by decide)
      [MinMax.Op.mergeIn MinMax.new, MinMax.Op.add 5]⟩

/-- C10: adding a sample that is incomparable to both stored bounds
(`partial_cmp` returns `None`, as for NaN) increments the count and leaves
both bounds unchanged; on an empty tracker, `add` sets both bounds to the
sample whatever the comparison says. -/
theorem add_incomparable_frame (cmp : α → α → Option Ordering) (m : MinMax α) (s a b : α)
    (hm : m.min = some a) (hM : m.max = some b)
    (ha : cmp s a = none) (hb : cmp s b = none) :
    (m.add cmp s).len = m.len + 1 ∧ (m.add cmp s).min = some a ∧
    (m.add cmp s).max = some b ∧
    ∀ t : α, MinMax.new.add cmp t = ⟨1, some t, some t⟩ := by
  refine ⟨rfl, ?_, ?_, fun t => rfl⟩
  · simp [MinMax.add, MinMax.isLt, hm, ha]
  · simp [MinMax.add, MinMax.isGt, hM, hb]

/-- Witness for C10 with the everywhere-incomparable comparison on `ℕ`. -/
theorem add_incomparable_frame_witness :
    ((⟨1, some 0, some 0⟩ : MinMax Nat).min = some 0 ∧ cmpNone 1 0 = none) ∧
    ((MinMax.add cmpNone ⟨1, some 0, some 0⟩ 1).len = 1 + 1 ∧
      (MinMax.add cmpNone ⟨1, some 0, some 0⟩ 1).min = some 0 ∧
      (MinMax.add cmpNone ⟨1, some 0, some 0⟩ 1).max = some 0 ∧
      ∀ t : Nat, MinMax.new.add cmpNone t = ⟨1, some t, some t⟩) :=
  ⟨⟨rfl, rfl⟩, add_incomparable_frame cmpNone ⟨1, some 0, some 0⟩ 1 0 0 rfl rfl rfl rfl⟩

end Claims

end RustStats
